import Mathlib

/-!
Verification of the awssume role-registry tool: a shallow embedding of
`pkg/awssume/awssume.go` and the `convert` command of the CLI entry point,
together with theorems settling the specification's claims about the
ARN codec, the role registry, the config store and the subprocess
execution flow.

Strings are modelled by Lean `String` (a wrapper around `List Char`),
Go byte slices by `List Char`, and the afero filesystem by a partial map
from paths to file contents.  Go methods that mutate their receiver are
modelled as functions returning the new state paired with an optional
error, mirroring the Go convention that an early error return leaves the
receiver untouched.
-/

namespace Awssume

/-- Decomposition of a character list at the first colon: `splitFirst cs`
is `some (p, q)` when `cs = p ++ ':' :: q` and `p` is colon-free, and
`none` when `cs` contains no colon.  This is the single splitting step of
Go's `strings.SplitN(s, ":", n)`. -/
def splitFirst : List Char → Option (List Char × List Char)
  | [] => none
  | c :: cs =>
    if c = ':' then some ([], cs)
    else
      match splitFirst cs with
      | none => none
      | some (p, q) => some (c :: p, q)

/-- Go's `strings.SplitN(s, ":", n)` on character lists: at most `n`
sections, the last section keeping any remaining colons. -/
def goSplitN : List Char → Nat → List (List Char)
  | _, 0 => []
  | cs, 1 => [cs]
  | cs, n + 2 =>
    match splitFirst cs with
    | none => [cs]
    | some (p, q) => p :: goSplitN q (n + 1)

/-- Go's `strings.HasPrefix`: does `s` begin with `pre`? -/
def hasPfx : List Char → List Char → Bool
  | [], _ => true
  | _ :: _, [] => false
  | p :: ps, c :: cs => p == c && hasPfx ps cs

/-- The ARN structure of `github.com/aws/aws-sdk-go-v2/aws/arn.ARN`,
wrapped by the repository's `ARN` type: five string fields obtained from
the six colon-delimited sections of an `arn:...` string. -/
structure ARN where
  partition : String
  service : String
  region : String
  accountID : String
  resource : String
deriving DecidableEq, Repr

/-- The aws-sdk `arn.Parse` called by the repository's `ParseARN`:
require the `arn:` prefix, split into at most six colon sections, require
exactly six, and take sections 1..5 as the fields.  The two Go error
values (invalid prefix / not enough sections) are both modelled by
`none`, the spec's single `MalformedIdentifier` condition. -/
def ParseARN (s : String) : Option ARN :=
  if hasPfx "arn:".data s.data then
    let secs := goSplitN s.data 6
    if h : secs.length = 6 then
      some ⟨⟨secs.get ⟨1, by omega⟩⟩, ⟨secs.get ⟨2, by omega⟩⟩, ⟨secs.get ⟨3, by omega⟩⟩,
            ⟨secs.get ⟨4, by omega⟩⟩, ⟨secs.get ⟨5, by omega⟩⟩⟩
    else none
  else none

/-- The aws-sdk `ARN.String` behind the repository's `ARN.String`:
rejoin the prefix and the five fields with colons. -/
def ARN.toStr (a : ARN) : String :=
  "arn:" ++ a.partition ++ ":" ++ a.service ++ ":" ++ a.region ++ ":" ++
    a.accountID ++ ":" ++ a.resource

/-- The repository's `ConfigFormat` enumeration (`JSON`, `TOML`, `YAML`,
`Unknown`). -/
inductive ConfigFormat
  | json
  | toml
  | yaml
  | unknown
deriving DecidableEq, Repr

/-- Go's `strings.TrimPrefix(ext, ".")`: remove one leading dot when
present. -/
def trimDot (s : String) : String :=
  match s.data with
  | c :: r => if c = '.' then ⟨r⟩ else s
  | _ => s

/-- The repository's `ConfigFormat.FromExt`: map a well-known extension
(with an optional leading dot) to a format, `yml` also mapping to YAML,
anything else to `Unknown`.  The Go method mutates its receiver; the
model returns the assigned format. -/
def fromExt (ext : String) : ConfigFormat :=
  let t := trimDot ext
  if t = "json" then ConfigFormat.json
  else if t = "toml" then ConfigFormat.toml
  else if t = "yaml" ∨ t = "yml" then ConfigFormat.yaml
  else ConfigFormat.unknown

/-- The repository's `ConfigFormat.String`: the stable extension for each
format, `Unknown` giving the literal marker `"UNKNOWN"`.  (The Go default
branch returning `""` is unreachable for the four enum values.) -/
def ConfigFormat.toStr : ConfigFormat → String
  | ConfigFormat.json => "json"
  | ConfigFormat.toml => "toml"
  | ConfigFormat.yaml => "yaml"
  | ConfigFormat.unknown => "UNKNOWN"

/-- The repository's `Role`: alias, ARN and STS session name.  The Go
field is a pointer `*ARN`; every construction site supplies a parsed ARN,
so the model stores it directly. -/
structure Role where
  Alias : String
  arn : ARN
  sessionName : String
deriving DecidableEq, Repr

/-- The repository's `Config` without its filesystem handle (which the
model passes separately): path without extension, current format, and the
ordered role collection. -/
structure Config where
  path : String
  format : ConfigFormat
  roles : List Role
deriving DecidableEq, Repr

/-- Error taxonomy for the modelled operations, following the error
values and wrapped messages of the source. -/
inductive AwsErr
  | roleNotFound (a : String)
  | roleExists (a : String)
  | multipleConfigs
  | unsupportedFormat
  | marshalErr
deriving DecidableEq, Repr

/-- The repository's `Config.GetRoleByAlias`: linear scan for the first
role with the given alias (`none` models the `ErrRoleNotFound` return). -/
def getRoleByAlias (c : Config) (a : String) : Option Role :=
  c.roles.find? (fun r => r.Alias == a)

/-- Lexicographic (character-wise, by code point) string comparison, the
order Go's `<`/`>` places on the strings compared by `Config.AddRole`'s
sort. -/
def charListLe : List Char → List Char → Bool
  | [], _ => true
  | _ :: _, [] => false
  | c :: cs, d :: ds =>
    if c.toNat < d.toNat then true
    else if d.toNat < c.toNat then false
    else charListLe cs ds

/-- Descending-by-alias order used by `Config.AddRole`'s
`sort.Slice(roles, roles[i].Alias > roles[j].Alias)`: `x` may precede `y`
when `y`'s alias is lexicographically at most `x`'s. -/
def aliasDesc (x y : Role) : Prop := charListLe y.Alias.data x.Alias.data = true

instance : DecidableRel aliasDesc :=
  fun x y => inferInstanceAs (Decidable (charListLe y.Alias.data x.Alias.data = true))

/-- Sorting step of `Config.AddRole`.  Go's `sort.Slice` is an unstable
comparison sort; any result is a permutation of the input that is
non-increasing by alias, and the model uses insertion sort as a
deterministic representative. -/
def sortRolesDesc (l : List Role) : List Role := List.insertionSort aliasDesc l

/-- The repository's `Config.AddRole`: fail with `ErrRoleExists` when the
alias already resolves (leaving the receiver untouched), otherwise append
and re-sort descending by alias. -/
def addRole (c : Config) (r : Role) : Config × Option AwsErr :=
  match getRoleByAlias c r.Alias with
  | some _ => (c, some (AwsErr.roleExists r.Alias))
  | none => ({ c with roles := sortRolesDesc (c.roles ++ [r]) }, none)

/-- Removal of the first role with the given alias, preserving the order
of the rest: the slice trick `c.Roles[:i+copy(c.Roles[i:], c.Roles[i+1:])]`
of `Config.RemoveRoleByAlias`. -/
def removeFirstRole : List Role → String → List Role
  | [], _ => []
  | x :: xs, a => if x.Alias = a then xs else x :: removeFirstRole xs a

/-- The repository's `Config.RemoveRoleByAlias`: remove the first match,
or fail with `ErrRoleNotFound` leaving the receiver untouched. -/
def removeRoleByAlias (c : Config) (a : String) : Config × Option AwsErr :=
  if (c.roles.find? (fun r => r.Alias == a)).isSome then
    ({ c with roles := removeFirstRole c.roles a }, none)
  else (c, some (AwsErr.roleNotFound a))

/-- The repository's `Config.UpdateRoleByAlias`: remove by the old alias
(propagating its `ErrRoleNotFound` failure untouched), then append the
new role at the end with no re-sort. -/
def updateRoleByAlias (c : Config) (a : String) (r : Role) : Config × Option AwsErr :=
  match removeRoleByAlias c a with
  | (_, some e) => (c, some e)
  | (c', none) => ({ c' with roles := c'.roles ++ [r] }, none)

/-! ### Filesystem model

The afero filesystem the repository threads through `Config` is modelled
as a partial map from paths to byte (character) contents.  The model's
filesystem primitives are total, so the environmental error returns of
`afero.Exists` / `WriteFile` / `Remove` have no counterpart. -/

/-- A filesystem: path to optional file contents. -/
def Fs : Type := String → Option (List Char)

/-- Existence probe, `afero.Exists`. -/
def fsExists (fs : Fs) (p : String) : Bool := (fs p).isSome

/-- Whole-file overwrite, `afero.WriteFile`. -/
def fsWrite (fs : Fs) (p : String) (bs : List Char) : Fs :=
  fun q => if q = p then some bs else fs q

/-- File deletion, `Fs.Remove`. -/
def fsRemove (fs : Fs) (p : String) : Fs :=
  fun q => if q = p then none else fs q

/-- Go's `strings.Join([a, b], ".")` as used to build `<path>.<ext>`. -/
def dotJoin (a b : String) : String := a ++ "." ++ b

/-! ### JSON well-formedness

`encoding/json` runs the bytes returned by a custom `MarshalJSON` through
its `compact` scanner and turns invalid output into a marshalling error.
The checker below is a fuel-bounded recursive-descent recogniser for the
JSON value grammar; `jsonValidValue` plays the role of that scanner. -/

/-- JSON insignificant whitespace. -/
def isJsonWs (c : Char) : Bool := c = ' ' ∨ c = '\t' ∨ c = '\n' ∨ c = '\r'

/-- Drop leading JSON whitespace. -/
def dropWs (cs : List Char) : List Char := cs.dropWhile isJsonWs

/-- Consume the remainder of a JSON string after the opening quote,
honouring backslash escapes; return the rest of the input. -/
def jsonStrRest : List Char → Option (List Char)
  | [] => none
  | '"' :: rest => some rest
  | '\\' :: _ :: rest => jsonStrRest rest
  | _ :: rest => jsonStrRest rest

/-- Expect the literal characters `lits` at the head of the input. -/
def expectChars : List Char → List Char → Option (List Char)
  | [], rest => some rest
  | l :: ls, c :: rest => if l = c then expectChars ls rest else none
  | _ :: _, [] => none

/-- Characters that may occur in a JSON number token. -/
def isNumChar (c : Char) : Bool :=
  c.isDigit ∨ c = '-' ∨ c = '+' ∨ c = '.' ∨ c = 'e' ∨ c = 'E'

mutual

/-- Parse one JSON value, returning the unconsumed rest. -/
def jsonVal : Nat → List Char → Option (List Char)
  | 0, _ => none
  | fuel + 1, cs =>
    match dropWs cs with
    | [] => none
    | c :: rest =>
      if c = '{' then
        match dropWs rest with
        | '}' :: r2 => some r2
        | r2 => jsonMembers fuel r2
      else if c = '[' then
        match dropWs rest with
        | ']' :: r2 => some r2
        | r2 => jsonElems fuel r2
      else if c = '"' then jsonStrRest rest
      else if c = 't' then expectChars ['r', 'u', 'e'] rest
      else if c = 'f' then expectChars ['a', 'l', 's', 'e'] rest
      else if c = 'n' then expectChars ['u', 'l', 'l'] rest
      else if c = '-' ∨ c.isDigit then some ((c :: rest).dropWhile isNumChar)
      else none

/-- Parse the members of a JSON object after `{`, up to and including the
closing brace. -/
def jsonMembers : Nat → List Char → Option (List Char)
  | 0, _ => none
  | fuel + 1, cs =>
    match dropWs cs with
    | '"' :: rest =>
      match jsonStrRest rest with
      | none => none
      | some r2 =>
        match dropWs r2 with
        | ':' :: r3 =>
          match jsonVal fuel r3 with
          | none => none
          | some r4 =>
            match dropWs r4 with
            | ',' :: r5 => jsonMembers fuel r5
            | '}' :: r5 => some r5
            | _ => none
        | _ => none
    | _ => none

/-- Parse the elements of a JSON array after `[`, up to and including the
closing bracket. -/
def jsonElems : Nat → List Char → Option (List Char)
  | 0, _ => none
  | fuel + 1, cs =>
    match jsonVal fuel cs with
    | none => none
    | some r2 =>
      match dropWs r2 with
      | ',' :: r3 => jsonElems fuel r3
      | ']' :: r3 => some r3
      | _ => none

end

/-- Is `cs` a single well-formed JSON value (with possible surrounding
whitespace)?  This is the validation `encoding/json` applies to the
output of a custom `MarshalJSON`. -/
def jsonValidValue (cs : List Char) : Bool :=
  match jsonVal (cs.length + 1) cs with
  | some rest => (dropWs rest).isEmpty
  | none => false

/-! ### JSON marshalling of the config

`Config.Save` with the JSON format runs `encoding/json.Marshal` over the
config.  The `roles` field serialises each `Role`; the `arn` field is
produced by the repository's `ARN.MarshalJSON`, which returns
`[]byte(a.String())` — the raw stringified ARN with no quoting — and
`encoding/json` rejects the marshal when those bytes are not valid
JSON. -/

/-- The repository's `ARN.MarshalJSON`: the raw bytes of the stringified
ARN. -/
def marshalJSONARN (a : ARN) : List Char := a.toStr.data

/-- Quote a string as a JSON string literal (the `encoding/json` encoding
of plain string fields such as `alias` and `session_name`). -/
def jsonQuote (s : String) : List Char :=
  '"' :: (s.data.flatMap fun c =>
    if c = '"' then ['\\', '"'] else if c = '\\' then ['\\', '\\'] else [c]) ++ ['"']

/-- Marshal one role object, validating the custom `MarshalJSON` output
for the `arn` field the way `encoding/json` does. -/
def jsonMarshalRole (r : Role) : Except AwsErr (List Char) :=
  let arnBytes := marshalJSONARN r.arn
  if jsonValidValue arnBytes then
    Except.ok ('\x7b' :: jsonQuote "alias" ++ ':' :: jsonQuote r.Alias ++
      ',' :: jsonQuote "arn" ++ ':' :: arnBytes ++
      ',' :: jsonQuote "session_name" ++ ':' :: jsonQuote r.sessionName ++ ['\x7d'])
  else Except.error AwsErr.marshalErr

/-- Marshal the role list elementwise, comma-separated, stopping at the
first error. -/
def jsonMarshalRolesList : List Role → Except AwsErr (List Char)
  | [] => Except.ok []
  | r :: rs =>
    match jsonMarshalRole r with
    | Except.error e => Except.error e
    | Except.ok bs =>
      match jsonMarshalRolesList rs with
      | Except.error e => Except.error e
      | Except.ok rest => Except.ok (if rs.isEmpty then bs else bs ++ ',' :: rest)

/-- The `encoding/json` marshal of a `Config`: the single `roles` field
(a Go nil slice marshals as `null`). -/
def jsonMarshalConfig (c : Config) : Except AwsErr (List Char) :=
  match c.roles with
  | [] => Except.ok ('\x7b' :: jsonQuote "roles" ++ ':' :: "null".data ++ ['\x7d'])
  | rs =>
    match jsonMarshalRolesList rs with
    | Except.error e => Except.error e
    | Except.ok bs =>
      Except.ok ('\x7b' :: jsonQuote "roles" ++ ':' :: '[' :: bs ++ [']', '\x7d'])

/-- Rendering used by the model of the external `gopkg.in/yaml.v3`
marshaller: a `roles` sequence whose `arn` entries go through the
repository's `ARN.MarshalYAML` (the bare stringified scalar).  Only its
totality matters to the theorems; no claim inspects YAML bytes. -/
def yamlMarshalConfig (c : Config) : Except AwsErr (List Char) :=
  Except.ok ("roles:\n".data ++ c.roles.flatMap fun r =>
    ("- alias: " ++ r.Alias ++ "\n  arn: " ++ r.arn.toStr ++
      "\n  session_name: " ++ r.sessionName ++ "\n").data)

/-- Rendering used by the model of the external `naoina/toml` marshaller
(which reflects over the embedded ARN struct fields; the repository
defines no TOML hooks).  Only its totality matters to the theorems. -/
def tomlMarshalConfig (c : Config) : Except AwsErr (List Char) :=
  Except.ok (c.roles.flatMap fun r =>
    ("[[roles]]\nalias = \"" ++ r.Alias ++ "\"\nsession_name = \"" ++
      r.sessionName ++ "\"\n[roles.arn]\npartition = \"" ++ r.arn.partition ++
      "\"\nservice = \"" ++ r.arn.service ++ "\"\n").data)

/-- The repository's `Config.Save`: pick the marshal function by format —
the `switch` has no `Unknown` arm, so `Unknown` keeps the default
function returning nil bytes and no error — then overwrite
`<path>.<format>` with the marshalled bytes. -/
def save (c : Config) (fs : Fs) : Except AwsErr Fs :=
  let marshalFn : Config → Except AwsErr (List Char) :=
    match c.format with
    | ConfigFormat.json => jsonMarshalConfig
    | ConfigFormat.toml => tomlMarshalConfig
    | ConfigFormat.yaml => yamlMarshalConfig
    | ConfigFormat.unknown => fun _ => Except.ok []
  match marshalFn c with
  | Except.error _ => Except.error AwsErr.marshalErr
  | Except.ok bytes => Except.ok (fsWrite fs (dotJoin c.path c.format.toStr) bytes)

/-- The `convert` subcommand of the CLI entry point, after the config has
been loaded: remember the old on-disk path, set the format from the
requested extension, save under the new extension, then delete the old
file. -/
def convertCmd (fs : Fs) (cfg : Config) (fmtExt : String) : Except AwsErr Fs :=
  let toRemove := dotJoin cfg.path cfg.format.toStr
  let cfg' := { cfg with format := fromExt fmtExt }
  match save cfg' fs with
  | Except.error e => Except.error e
  | Except.ok fs' => Except.ok (fsRemove fs' toRemove)

/-! ### Config loading -/

/-- Go's `path.Ext`: the suffix of the final slash-separated element
starting at its last dot, or empty when that element has no dot. -/
def pathExt (p : String) : String :=
  let revSeg := p.data.reverse.takeWhile (fun c => c ≠ '/')
  if revSeg.contains '.' then ⟨'.' :: (revSeg.takeWhile (fun c => c ≠ '.')).reverse⟩
  else ""

/-- Go's `strings.TrimSuffix`: drop `suf` from the end of `s` when
present. -/
def trimSfx (s suf : String) : String :=
  if suf.data.isSuffixOf s.data then ⟨s.data.take (s.data.length - suf.data.length)⟩
  else s

/-- The probe-and-select phase of the repository's `NewConfig` (the part
that decides the claim about conflicting on-disk state): trim the
extension from the option path, probe `<path>.json`, `<path>.yaml` and
`<path>.toml`, fail with `ErrMultipleConfigs` when two or more coexist,
otherwise select the existing format, defaulting to YAML. -/
def newConfigDetectFormat (fs : Fs) (optsPath : String) : Except AwsErr ConfigFormat :=
  let cfgPath := trimSfx optsPath (pathExt optsPath)
  let jsonFileExists := fsExists fs (dotJoin cfgPath ConfigFormat.json.toStr)
  let yamlFileExists := fsExists fs (dotJoin cfgPath ConfigFormat.yaml.toStr)
  let tomlFileExists := fsExists fs (dotJoin cfgPath ConfigFormat.toml.toStr)
  if jsonFileExists && yamlFileExists && tomlFileExists ||
      jsonFileExists && yamlFileExists ||
      jsonFileExists && tomlFileExists ||
      yamlFileExists && tomlFileExists then
    Except.error AwsErr.multipleConfigs
  else if jsonFileExists then Except.ok ConfigFormat.json
  else if yamlFileExists then Except.ok ConfigFormat.yaml
  else if tomlFileExists then Except.ok ConfigFormat.toml
  else Except.ok ConfigFormat.yaml

/-! ### Subprocess execution epilogue

`Config.ExecRole` ends by running the child command.  `cmdToRun.Run()`
returns nil on a zero exit, an `*exec.ExitError` when the child ran and
exited non-zero, or another error when the child could not be started.
The source then reads:

    if err := cmdToRun.Run(); err != nil {
        if err != nil {
            return err
        }
        if exitError, ok := err.(*exec.ExitError); ok {
            waitStatus = exitError.Sys().(syscall.WaitStatus)
            os.Exit(waitStatus.ExitStatus())
        }
    }
    return nil

which is transcribed branch for branch below. -/

/-- Result of `cmdToRun.Run()`: an `*exec.ExitError` carrying the child's
non-zero exit status, or a failure to start the child at all. -/
inductive RunError
  | exitError (code : Nat)
  | startError
deriving DecidableEq, Repr

/-- How `ExecRole` ends: returning nil, returning an error to the CLI, or
terminating the whole process via `os.Exit` with the child's status. -/
inductive ExecEnd
  | returnedNil
  | returnedErr (e : RunError)
  | exitedWith (code : Nat)
deriving DecidableEq, Repr

/-- The final error-handling block of `Config.ExecRole`, as a function of
the `cmdToRun.Run()` outcome. -/
def execRoleEpilogue (runRes : Option RunError) : ExecEnd :=
  match runRes with
  | none => ExecEnd.returnedNil
  | some err =>
    if (some err).isSome then ExecEnd.returnedErr err
    else
      match err with
      | RunError.exitError code => ExecEnd.exitedWith code
      | RunError.startError => ExecEnd.returnedNil

/-- The process exit status produced by the CLI entry point for each way
`ExecRole` can end: `main` prints any returned error and calls
`os.Exit(1)`. -/
def cliExitCode : ExecEnd → Nat
  | ExecEnd.returnedNil => 0
  | ExecEnd.returnedErr _ => 1
  | ExecEnd.exitedWith code => code

/-! ### Auxiliary definitions for the statements -/

/-- Inverse of colon splitting: rejoin sections with colons (used to state
the split/join round trip). -/
def joinColon : List (List Char) → List Char
  | [] => []
  | [x] => x
  | x :: xs => x ++ ':' :: joinColon xs

/-- Alias uniqueness invariant of the role registry. -/
def uniqAliases (l : List Role) : Prop := (l.map Role.Alias).Nodup

instance (l : List Role) : Decidable (uniqAliases l) :=
  inferInstanceAs (Decidable (l.map Role.Alias).Nodup)

/-- Fixture: the ARN of the spec's end-to-end example. -/
def skunkArn : ARN := ⟨"aws", "iam", "", "000000000000", "role/skunk"⟩

/-- Fixture: the role of the spec's end-to-end example. -/
def skunkRole : Role := ⟨"skunk", skunkArn, "sess"⟩

/-- Fixture roles with single-letter aliases. -/
def roleA : Role := ⟨"a", skunkArn, "s1"⟩

/-- Fixture role with alias `b`. -/
def roleB : Role := ⟨"b", skunkArn, "s2"⟩

/-- Fixture role sharing alias `b` with `roleB` but differing otherwise. -/
def roleB2 : Role := ⟨"b", skunkArn, "s3"⟩

/-- Fixture role with alias `c`. -/
def roleC : Role := ⟨"c", skunkArn, "s4"⟩

/-- Fixture registry with two roles of aliases `a` and `b`. -/
def cexCfg : Config := ⟨"cfg", ConfigFormat.yaml, [roleA, roleB]⟩

/-- Fixture: the empty filesystem. -/
def emptyFs : Fs := fun _ => none

/-- Fixture: a filesystem holding both `cfg.json` and `cfg.yaml`. -/
def twoCfgFs : Fs := fun q => if q = "cfg.json" ∨ q = "cfg.yaml" then some [] else none

/-! ### String and splitting lemmas -/

theorem strEq_of_data {a b : String} (h : a.data = b.data) : a = b := by
  cases a; cases b; cases h; rfl

theorem strEta (s : String) : String.mk s.data = s := by
  cases s; rfl

theorem hasPfx_iff (p s : List Char) : hasPfx p s = true ↔ p <+: s := by
  induction p generalizing s with
  | nil => simp [hasPfx]
  | cons c cs ih =>
    cases s with
    | nil => simp [hasPfx]
    | cons d ds =>
      simp only [hasPfx, Bool.and_eq_true, beq_iff_eq, ih, List.cons_prefix_cons]

theorem splitFirst_eq_none_iff (cs : List Char) : splitFirst cs = none ↔ ':' ∉ cs := by
  induction cs with
  | nil => simp [splitFirst]
  | cons c cs ih =>
    by_cases hc : c = ':'
    · subst hc; simp [splitFirst]
    · simp only [splitFirst, if_neg hc]
      cases h : splitFirst cs with
      | none =>
        have hnm : ':' ∉ cs := ih.mp h
        simp [h, hnm]
        exact fun he => hc he.symm
      | some pq =>
        obtain ⟨p, q⟩ := pq
        have hmem : ':' ∈ cs := by
          by_contra hmem
          have hn := ih.mpr hmem
          rw [h] at hn
          exact Option.noConfusion hn
        simp [hmem]

theorem splitFirst_eq_some {cs p q : List Char} (h : splitFirst cs = some (p, q)) :
    cs = p ++ ':' :: q ∧ ':' ∉ p := by
  induction cs generalizing p q with
  | nil => simp [splitFirst] at h
  | cons c cs ih =>
    by_cases hc : c = ':'
    · subst hc
      simp [splitFirst] at h
      obtain ⟨hp, hq⟩ := h
      subst hp; subst hq
      simp
    · simp only [splitFirst, if_neg hc] at h
      cases hs : splitFirst cs with
      | none => rw [hs] at h; exact Option.noConfusion h
      | some pq =>
        obtain ⟨p', q'⟩ := pq
        rw [hs] at h
        simp only [Option.some.injEq, Prod.mk.injEq] at h
        obtain ⟨hp, hq⟩ := h
        obtain ⟨hcs, hnp⟩ := ih hs
        subst hq
        constructor
        · rw [← hp]; simp [hcs]
        · rw [← hp]
          simp only [List.mem_cons]
          exact fun hor => hor.elim (fun he => hc he.symm) hnp

theorem splitFirst_append {p : List Char} (q : List Char) (h : ':' ∉ p) :
    splitFirst (p ++ ':' :: q) = some (p, q) := by
  induction p with
  | nil => simp [splitFirst]
  | cons c cs ih =>
    simp only [List.mem_cons, not_or] at h
    obtain ⟨hc, hcs⟩ := h
    have hne : ¬c = ':' := fun he => hc he.symm
    simp only [List.cons_append, splitFirst, if_neg hne, List.append_eq, ih hcs]

theorem goSplitN_ne_nil (cs : List Char) (n : Nat) (h : 1 ≤ n) : goSplitN cs n ≠ [] := by
  match n, h with
  | 1, _ => simp [goSplitN]
  | n + 2, _ =>
    rw [goSplitN]
    cases hs : splitFirst cs with
    | none => simp
    | some pq => simp

theorem joinColon_cons (x : List Char) {l : List (List Char)} (h : l ≠ []) :
    joinColon (x :: l) = x ++ ':' :: joinColon l := by
  cases l with
  | nil => exact absurd rfl h
  | cons y ys => rfl

theorem joinColon_goSplitN : ∀ (cs : List Char) (n : Nat), 1 ≤ n →
    joinColon (goSplitN cs n) = cs
  | cs, 1, _ => by simp [goSplitN, joinColon]
  | cs, n + 2, _ => by
    rw [goSplitN]
    cases hs : splitFirst cs with
    | none => simp [joinColon]
    | some pq =>
      obtain ⟨p, q⟩ := pq
      obtain ⟨hcs, _⟩ := splitFirst_eq_some hs
      rw [joinColon_cons p (goSplitN_ne_nil q (n + 1) (by omega)),
        joinColon_goSplitN q (n + 1) (by omega)]
      exact hcs.symm

theorem goSplitN_length : ∀ (cs : List Char) (n : Nat), 1 ≤ n →
    (goSplitN cs n).length = min n (cs.count ':' + 1)
  | cs, 1, _ => by simp [goSplitN]
  | cs, n + 2, _ => by
    rw [goSplitN]
    cases hs : splitFirst cs with
    | none =>
      have hnm : ':' ∉ cs := (splitFirst_eq_none_iff cs).mp hs
      have : cs.count ':' = 0 := List.count_eq_zero.mpr hnm
      simp [this]
    | some pq =>
      obtain ⟨p, q⟩ := pq
      obtain ⟨hcs, hnp⟩ := splitFirst_eq_some hs
      have hp0 : p.count ':' = 0 := List.count_eq_zero.mpr hnp
      have hrec := goSplitN_length q (n + 1) (by omega)
      have hcount : cs.count ':' = q.count ':' + 1 := by
        rw [hcs, List.count_append, List.count_cons]
        simp [hp0]
      simp only [List.length_cons, hrec, hcount]
      omega

theorem goSplitN_cons_of_append {p : List Char} (q : List Char) (n : Nat) (h : ':' ∉ p) :
    goSplitN (p ++ ':' :: q) (n + 2) = p :: goSplitN q (n + 1) := by
  rw [goSplitN, splitFirst_append q h]

theorem exists_five {α : Type} {l : List α} (h : l.length = 5) :
    ∃ a b c d e, l = [a, b, c, d, e] := by
  cases l with
  | nil => simp at h
  | cons a l1 =>
  cases l1 with
  | nil => simp at h
  | cons b l2 =>
  cases l2 with
  | nil => simp at h
  | cons c l3 =>
  cases l3 with
  | nil => simp at h
  | cons d l4 =>
  cases l4 with
  | nil => simp at h
  | cons e l5 =>
  cases l5 with
  | nil => exact ⟨a, b, c, d, e, rfl⟩
  | cons f l6 => simp at h

theorem ParseARN_eq_of_secs (s : String) (l0 t1 t2 t3 t4 t5 : List Char)
    (hpfx : hasPfx "arn:".data s.data = true)
    (hsecs : goSplitN s.data 6 = [l0, t1, t2, t3, t4, t5]) :
    ParseARN s = some ⟨⟨t1⟩, ⟨t2⟩, ⟨t3⟩, ⟨t4⟩, ⟨t5⟩⟩ := by
  simp only [ParseARN, hpfx, if_true, hsecs]
  simp [List.get, hsecs]

theorem parse_of_grammar (s : String)
    (hp : ['a', 'r', 'n', ':'] <+: s.data) (hc : 5 ≤ s.data.count ':') :
    ∃ a, ParseARN s = some a ∧ a.toStr = s := by
  obtain ⟨rest, hrest⟩ := hp
  have harn : "arn:".data = ['a', 'r', 'n', ':'] := by decide
  have hpfx : hasPfx "arn:".data s.data = true := by
    rw [harn]; exact (hasPfx_iff _ _).mpr ⟨rest, hrest⟩
  have hsecs : goSplitN s.data 6 = ['a', 'r', 'n'] :: goSplitN rest 5 := by
    rw [← hrest]
    exact goSplitN_cons_of_append (p := ['a', 'r', 'n']) rest 4 (by decide)
  have hlen6 : (goSplitN s.data 6).length = 6 := by
    rw [goSplitN_length s.data 6 (by omega)]; omega
  have htl : (goSplitN rest 5).length = 5 := by
    rw [hsecs] at hlen6; simpa using hlen6
  obtain ⟨t1, t2, t3, t4, t5, htlEq⟩ := exists_five htl
  have hsecs6 : goSplitN s.data 6 = [['a', 'r', 'n'], t1, t2, t3, t4, t5] := by
    rw [hsecs, htlEq]
  have hrest2 : rest = t1 ++ ':' :: (t2 ++ ':' :: (t3 ++ ':' :: (t4 ++ ':' :: t5))) := by
    have := joinColon_goSplitN rest 5 (by omega)
    rw [htlEq] at this
    simpa [joinColon] using this.symm
  refine ⟨⟨⟨t1⟩, ⟨t2⟩, ⟨t3⟩, ⟨t4⟩, ⟨t5⟩⟩,
    ParseARN_eq_of_secs s ['a', 'r', 'n'] t1 t2 t3 t4 t5 hpfx hsecs6, ?_⟩
  · apply strEq_of_data
    rw [← hrest, hrest2]
    simp [ARN.toStr, String.data_append, harn]

theorem toStr_data (a : ARN) :
    a.toStr.data = 'a' :: 'r' :: 'n' :: ':' ::
      (a.partition.data ++ ':' :: (a.service.data ++ ':' :: (a.region.data ++ ':' ::
        (a.accountID.data ++ ':' :: a.resource.data)))) := by
  simp [ARN.toStr, String.data_append]

theorem parse_toStr (a : ARN) (h1 : ':' ∉ a.partition.data) (h2 : ':' ∉ a.service.data)
    (h3 : ':' ∉ a.region.data) (h4 : ':' ∉ a.accountID.data) :
    ParseARN a.toStr = some a := by
  have hdata := toStr_data a
  have hpfx : hasPfx "arn:".data a.toStr.data = true := by
    rw [hdata]; simp [hasPfx]
  have hsecs : goSplitN a.toStr.data 6 =
      [['a', 'r', 'n'], a.partition.data, a.service.data, a.region.data,
        a.accountID.data, a.resource.data] := by
    rw [hdata]
    have s1 := goSplitN_cons_of_append (p := ['a', 'r', 'n'])
      (a.partition.data ++ ':' :: (a.service.data ++ ':' :: (a.region.data ++ ':' ::
        (a.accountID.data ++ ':' :: a.resource.data)))) 4 (by decide)
    rw [show ('a' :: 'r' :: 'n' :: ':' ::
      (a.partition.data ++ ':' :: (a.service.data ++ ':' :: (a.region.data ++ ':' ::
        (a.accountID.data ++ ':' :: a.resource.data))))) = (['a', 'r', 'n'] ++ ':' ::
      (a.partition.data ++ ':' :: (a.service.data ++ ':' :: (a.region.data ++ ':' ::
        (a.accountID.data ++ ':' :: a.resource.data))))) from rfl, s1,
      goSplitN_cons_of_append _ 3 h1, goSplitN_cons_of_append _ 2 h2,
      goSplitN_cons_of_append _ 1 h3, goSplitN_cons_of_append _ 0 h4]
    rfl
  rw [ParseARN_eq_of_secs a.toStr ['a', 'r', 'n'] a.partition.data a.service.data
    a.region.data a.accountID.data a.resource.data hpfx hsecs]

theorem ParseARN_none_iff (s : String) :
    ParseARN s = none ↔ ¬ (['a', 'r', 'n', ':'] <+: s.data) ∨ s.data.count ':' + 1 < 6 := by
  have harn : "arn:".data = ['a', 'r', 'n', ':'] := by decide
  by_cases hpfx : hasPfx "arn:".data s.data = true
  · have hpre : ['a', 'r', 'n', ':'] <+: s.data := by
      rw [← harn]; exact (hasPfx_iff _ _).mp hpfx
    have hlen : (goSplitN s.data 6).length = min 6 (s.data.count ':' + 1) :=
      goSplitN_length s.data 6 (by omega)
    by_cases hc : 5 ≤ s.data.count ':'
    · obtain ⟨a, ha, _⟩ := parse_of_grammar s hpre hc
      rw [ha]
      simp [hpre]
      omega
    · have h6 : ¬ (goSplitN s.data 6).length = 6 := by omega
      simp only [ParseARN, hpfx, if_true, dif_neg h6]
      simp [hpre]
      omega
  · have hpre : ¬ (['a', 'r', 'n', ':'] <+: s.data) := by
      rw [← harn]; intro hmem; exact hpfx ((hasPfx_iff _ _).mpr hmem)
    simp only [ParseARN, if_neg hpfx]
    simp [hpre]

theorem removeFirstRole_sublist (l : List Role) (a : String) :
    (removeFirstRole l a).Sublist l := by
  induction l with
  | nil => simp [removeFirstRole]
  | cons x xs ih =>
    by_cases hx : x.Alias = a
    · simp [removeFirstRole, hx]
    · simpa [removeFirstRole, hx] using ih.cons₂ x

theorem sortRolesDesc_perm (l : List Role) : (sortRolesDesc l).Perm l :=
  List.perm_insertionSort aliasDesc l

theorem uniqAliases_add {c : Config} {r : Role} {c' : Config}
    (hu : uniqAliases c.roles) (h : addRole c r = (c', none)) : uniqAliases c'.roles := by
  unfold addRole at h
  cases hg : getRoleByAlias c r.Alias with
  | some x => rw [hg] at h; simp at h
  | none =>
    rw [hg] at h
    simp only [Prod.mk.injEq] at h
    obtain ⟨hc', -⟩ := h
    have hnm : r.Alias ∉ c.roles.map Role.Alias := by
      intro hmem
      obtain ⟨x, hx, hax⟩ := List.mem_map.mp hmem
      have := List.find?_eq_none.mp hg x hx
      simp [hax] at this
    have hperm := (sortRolesDesc_perm (c.roles ++ [r])).map Role.Alias
    rw [← hc']
    show ((sortRolesDesc (c.roles ++ [r])).map Role.Alias).Nodup
    rw [hperm.nodup_iff]
    simp only [List.map_append, List.map_cons, List.map_nil]
    rw [List.nodup_append]
    exact ⟨hu, List.nodup_singleton _, by simpa using hnm⟩

theorem uniqAliases_remove {c : Config} {a : String} {c' : Config} {e : Option AwsErr}
    (hu : uniqAliases c.roles) (h : removeRoleByAlias c a = (c', e)) :
    uniqAliases c'.roles := by
  unfold removeRoleByAlias at h
  by_cases hf : (c.roles.find? (fun r => r.Alias == a)).isSome
  · rw [if_pos hf] at h
    simp only [Prod.mk.injEq] at h
    obtain ⟨hc', -⟩ := h
    rw [← hc']
    exact List.Nodup.sublist ((removeFirstRole_sublist c.roles a).map Role.Alias) hu
  · rw [if_neg hf] at h
    simp only [Prod.mk.injEq] at h
    obtain ⟨hc', -⟩ := h
    rw [← hc']
    exact hu

theorem uniqAliases_update {c : Config} {a : String} {r : Role} {c' : Config}
    (hu : uniqAliases c.roles) (h : updateRoleByAlias c a r = (c', none))
    (hr : r.Alias ∉ (removeRoleByAlias c a).1.roles.map Role.Alias) :
    uniqAliases c'.roles := by
  unfold updateRoleByAlias at h
  cases hrem : removeRoleByAlias c a with
  | mk c'' e =>
    cases e with
    | some err => rw [hrem] at h; simp at h
    | none =>
      rw [hrem] at h
      simp only [Prod.mk.injEq] at h
      obtain ⟨hc', -⟩ := h
      have hu'' : uniqAliases c''.roles := uniqAliases_remove hu hrem
      rw [hrem] at hr
      rw [← hc']
      show ((c''.roles ++ [r]).map Role.Alias).Nodup
      simp only [List.map_append, List.map_cons, List.map_nil]
      rw [List.nodup_append]
      exact ⟨hu'', List.nodup_singleton _, by simpa using hr⟩

theorem jsonVal_succ_a (fuel : Nat) (rest : List Char) :
    jsonVal (fuel + 1) ('a' :: rest) = none := by
  simp [jsonVal, dropWs, isJsonWs]

theorem jsonValidValue_arn_false (a : ARN) : jsonValidValue (marshalJSONARN a) = false := by
  have hd := toStr_data a
  show jsonValidValue a.toStr.data = false
  rw [hd]
  simp [jsonValidValue, jsonVal_succ_a]

/-- C1: contrary to the claim, Save-then-load does not round-trip for the
JSON format: for every config in JSON format with at least one role,
`Save` already fails with a marshal error, because `ARN.MarshalJSON`
returns the raw unquoted ARN string, which is not valid JSON, so the
`encoding/json` marshal of the config is rejected.  (The claim holds as a
code bug: the code's own compile-time `json.Marshaler` assertion promises
valid JSON output.) -/
theorem save_json_arn_marshal_error (c : Config) (fs : Fs)
    (hfmt : c.format = ConfigFormat.json) (hroles : c.roles ≠ []) :
    save c fs = Except.error AwsErr.marshalErr := by
  obtain ⟨r, rs, hr⟩ : ∃ r rs, c.roles = r :: rs := by
    cases h : c.roles with
    | nil => exact absurd h hroles
    | cons r rs => exact ⟨r, rs, rfl⟩
  have hrole : jsonMarshalRole r = Except.error AwsErr.marshalErr := by
    simp [jsonMarshalRole, jsonValidValue_arn_false r.arn]
  simp [save, hfmt, jsonMarshalConfig, hr, jsonMarshalRolesList, hrole]

theorem dotJoin_inj_right {p a b : String} (h : dotJoin p a = dotJoin p b) : a = b := by
  have hd := congrArg String.data h
  simp only [dotJoin, String.data_append, List.append_assoc] at hd
  have h2 := List.append_cancel_left hd
  have h3 := List.append_cancel_left h2
  exact strEq_of_data h3

theorem trimDot_cases (s t : String) (h : trimDot s = t) :
    s = t ∨ s = String.mk ('.' :: t.data) := by
  unfold trimDot at h
  cases hd : s.data with
  | nil => rw [hd] at h; exact Or.inl h
  | cons c rest =>
    rw [hd] at h
    simp only at h
    by_cases hc : c = '.'
    · rw [if_pos hc] at h
      right
      apply strEq_of_data
      rw [hd, hc, ← h]
    · rw [if_neg hc] at h
      exact Or.inl h

theorem fromExt_unknown_of_not_mem (s : String)
    (h : s ∉ (["json", ".json", "toml", ".toml", "yaml", ".yaml", "yml", ".yml"] :
      List String)) :
    fromExt s = ConfigFormat.unknown := by
  simp only [List.mem_cons, List.mem_singleton, not_or] at h
  obtain ⟨n1, n2, n3, n4, n5, n6, n7, n8, -⟩ := h
  have hj : ¬trimDot s = "json" := by
    intro ht
    rcases trimDot_cases s "json" ht with he | he
    · exact n1 he
    · exact n2 (by rw [he])
  have hto : ¬trimDot s = "toml" := by
    intro ht
    rcases trimDot_cases s "toml" ht with he | he
    · exact n3 he
    · exact n4 (by rw [he])
  have hy : ¬trimDot s = "yaml" := by
    intro ht
    rcases trimDot_cases s "yaml" ht with he | he
    · exact n5 he
    · exact n6 (by rw [he])
  have hym : ¬trimDot s = "yml" := by
    intro ht
    rcases trimDot_cases s "yml" ht with he | he
    · exact n7 he
    · exact n8 (by rw [he])
  simp [fromExt, hj, hto, hy, hym]

/-- C8: `NewConfig` fails with `ErrMultipleConfigs` whenever at least two
of `<path>.json`, `<path>.yaml`, `<path>.toml` exist simultaneously, for
every combination of two or three coexisting files (any two-way
conjunction below also covers the three-way case). -/
theorem newConfig_multipleConfigs (fs : Fs) (p : String)
    (h : (fsExists fs (dotJoin (trimSfx p (pathExt p)) ConfigFormat.json.toStr) = true ∧
          fsExists fs (dotJoin (trimSfx p (pathExt p)) ConfigFormat.yaml.toStr) = true) ∨
         (fsExists fs (dotJoin (trimSfx p (pathExt p)) ConfigFormat.json.toStr) = true ∧
          fsExists fs (dotJoin (trimSfx p (pathExt p)) ConfigFormat.toml.toStr) = true) ∨
         (fsExists fs (dotJoin (trimSfx p (pathExt p)) ConfigFormat.yaml.toStr) = true ∧
          fsExists fs (dotJoin (trimSfx p (pathExt p)) ConfigFormat.toml.toStr) = true)) :
    newConfigDetectFormat fs p = Except.error AwsErr.multipleConfigs := by
  simp only [newConfigDetectFormat]
  rcases h with ⟨h1, h2⟩ | ⟨h1, h2⟩ | ⟨h1, h2⟩ <;> simp [h1, h2]

theorem save_unknown (c : Config) (fs : Fs) (hfmt : c.format = ConfigFormat.unknown) :
    save c fs = Except.ok (fsWrite fs (dotJoin c.path "UNKNOWN") []) := by
  simp [save, hfmt, ConfigFormat.toStr]

theorem convert_unknown (fs : Fs) (cfg : Config) (e : String)
    (hext : fromExt e = ConfigFormat.unknown) :
    convertCmd fs cfg e =
      Except.ok (fsRemove (fsWrite fs (dotJoin cfg.path "UNKNOWN") [])
        (dotJoin cfg.path cfg.format.toStr)) := by
  have hsave : save { cfg with format := fromExt e } fs =
      Except.ok (fsWrite fs (dotJoin cfg.path "UNKNOWN") []) := by
    exact save_unknown _ fs (by simp [hext])
  simp [convertCmd, hsave]

theorem unknown_path_ne (cfg : Config) (hfmt : cfg.format ≠ ConfigFormat.unknown) :
    dotJoin cfg.path "UNKNOWN" ≠ dotJoin cfg.path cfg.format.toStr := by
  intro h
  have := dotJoin_inj_right h
  cases hc : cfg.format <;> rw [hc] at this <;> first
    | exact hfmt hc
    | simp [ConfigFormat.toStr] at this


theorem charListLe_total : ∀ a b, charListLe a b = true ∨ charListLe b a = true
  | [], _ => Or.inl rfl
  | _ :: _, [] => Or.inr rfl
  | c :: cs, d :: ds => by
    by_cases h1 : c.toNat < d.toNat
    · left; simp [charListLe, h1]
    · by_cases h2 : d.toNat < c.toNat
      · right; simp [charListLe, h1, h2]
      · rcases charListLe_total cs ds with h | h
        · left; simp [charListLe, h1, h2, h]
        · right; simp [charListLe, h1, h2, h]

theorem charListLe_trans : ∀ a b c, charListLe a b = true → charListLe b c = true →
    charListLe a c = true
  | [], _, _ => fun _ _ => rfl
  | _ :: _, [], _ => by intro h _; simp [charListLe] at h
  | _ :: _, _ :: _, [] => by intro _ h; simp [charListLe] at h
  | a :: as, b :: bs, c :: cs => by
    intro h1 h2
    simp only [charListLe] at h1 h2 ⊢
    by_cases hab : a.toNat < b.toNat
    · by_cases hbc : b.toNat < c.toNat
      · have hac : a.toNat < c.toNat := by omega
        simp [hac]
      · by_cases hcb : c.toNat < b.toNat
        · simp [hbc, hcb] at h2
        · have hac : a.toNat < c.toNat := by omega
          simp [hac]
    · by_cases hba : b.toNat < a.toNat
      · simp [hab, hba] at h1
      · by_cases hbc : b.toNat < c.toNat
        · have hac : a.toNat < c.toNat := by omega
          simp [hac]
        · by_cases hcb : c.toNat < b.toNat
          · simp [hbc, hcb] at h2
          · have hac1 : ¬a.toNat < c.toNat := by omega
            have hac2 : ¬c.toNat < a.toNat := by omega
            simp [hab, hba] at h1
            simp [hbc, hcb] at h2
            simp [hac1, hac2]
            exact charListLe_trans as bs cs h1 h2

/-! ### Claim theorems -/

/-- Witness for C1: saving the spec's own example config (one `skunk`
role) in JSON format fails with the marshal error. -/
theorem save_json_arn_marshal_error_witness :
    save ⟨"cfg", ConfigFormat.json, [skunkRole]⟩ emptyFs =
      Except.error AwsErr.marshalErr :=
  save_json_arn_marshal_error ⟨"cfg", ConfigFormat.json, [skunkRole]⟩ emptyFs rfl (by simp)

/-- C2: contrary to the claim, a non-zero child exit status is never
propagated verbatim: the inner `if err != nil` of `ExecRole` returns the
`*exec.ExitError` before the dead `os.Exit(waitStatus.ExitStatus())`
branch can run, so the CLI treats it as a tool error and the process
exits `1` for every child exit code. -/
theorem execRole_child_exit_code_not_propagated (code : Nat) :
    execRoleEpilogue (some (RunError.exitError code)) =
      ExecEnd.returnedErr (RunError.exitError code) ∧
    cliExitCode (execRoleEpilogue (some (RunError.exitError code))) = 1 :=
  ⟨rfl, rfl⟩

/-- Counterexample for C3: on the registry `[a, b]`, updating `a` with a
role aliased `b` succeeds and leaves two roles with alias `b`, so
`UpdateRoleByAlias` does not preserve alias uniqueness when the new alias
collides with another existing alias. -/
theorem updateRole_alias_collision_cex :
    uniqAliases cexCfg.roles ∧
    (updateRoleByAlias cexCfg "a" roleB2).2 = none ∧
    ¬uniqAliases (updateRoleByAlias cexCfg "a" roleB2).1.roles := by decide

/-- C3 (amended): alias uniqueness is preserved by every successful
`AddRole`, by `RemoveRoleByAlias` (on success or failure), and by a
successful `UpdateRoleByAlias` provided the new role's alias does not
occur among the aliases remaining after the removal. -/
theorem registry_alias_uniqueness_amended :
    (∀ c r c', uniqAliases c.roles → addRole c r = (c', none) →
      uniqAliases c'.roles) ∧
    (∀ c a c' e, uniqAliases c.roles → removeRoleByAlias c a = (c', e) →
      uniqAliases c'.roles) ∧
    (∀ c a r c', uniqAliases c.roles → updateRoleByAlias c a r = (c', none) →
      r.Alias ∉ (removeRoleByAlias c a).1.roles.map Role.Alias →
      uniqAliases c'.roles) :=
  ⟨fun _ _ _ hu h => uniqAliases_add hu h,
   fun _ _ _ _ hu h => uniqAliases_remove hu h,
   fun _ _ _ _ hu h hr => uniqAliases_update hu h hr⟩

/-- Witness for C3: concrete instances of all three preservation parts on
the `[a, b]` registry. -/
theorem registry_alias_uniqueness_amended_witness :
    uniqAliases (Config.mk "cfg" ConfigFormat.yaml [roleC, roleB, roleA]).roles ∧
    uniqAliases (Config.mk "cfg" ConfigFormat.yaml [roleB]).roles ∧
    uniqAliases (Config.mk "cfg" ConfigFormat.yaml [roleB, roleC]).roles :=
  ⟨registry_alias_uniqueness_amended.1 cexCfg roleC _ (by decide) (by decide),
   registry_alias_uniqueness_amended.2.1 cexCfg "a" _ none (by decide) (by decide),
   registry_alias_uniqueness_amended.2.2 cexCfg "a" roleC _ (by decide) (by decide)
     (by decide)⟩

/-- Counterexample for C4: an ARN whose partition field contains a colon
stringifies to a string that parses back to a different structure, so the
parse-after-stringify direction fails for arbitrary structures. -/
theorem arn_roundtrip_cex :
    ARN.toStr ⟨"a:b", "", "", "", ""⟩ = "arn:a:b::::" ∧
    ParseARN "arn:a:b::::" = some ⟨"a", "b", "", "", ":"⟩ ∧
    ParseARN (ARN.toStr ⟨"a:b", "", "", "", ""⟩) ≠ some ⟨"a:b", "", "", "", ""⟩ := by
  decide

/-- C4 (amended): stringify-after-parse reproduces every accepted string
exactly; parse-after-stringify reproduces the structure for every ARN
whose partition, service, region and account fields are colon-free (the
resource section may contain colons, which `SplitN` leaves in place). -/
theorem arn_codec_roundtrip_amended :
    (∀ s : String, ['a', 'r', 'n', ':'] <+: s.data → 5 ≤ s.data.count ':' →
      ∃ a, ParseARN s = some a ∧ a.toStr = s) ∧
    (∀ a : ARN, ':' ∉ a.partition.data → ':' ∉ a.service.data →
      ':' ∉ a.region.data → ':' ∉ a.accountID.data → ParseARN a.toStr = some a) :=
  ⟨parse_of_grammar, parse_toStr⟩

/-- Witness for C4: both round-trip directions at the spec's example
ARN. -/
theorem arn_codec_roundtrip_amended_witness :
    (∃ a, ParseARN "arn:aws:iam::000000000000:role/skunk" = some a ∧
      a.toStr = "arn:aws:iam::000000000000:role/skunk") ∧
    ParseARN (ARN.toStr skunkArn) = some skunkArn :=
  ⟨arn_codec_roundtrip_amended.1 "arn:aws:iam::000000000000:role/skunk"
      (by decide) (by decide),
   arn_codec_roundtrip_amended.2 skunkArn (by decide) (by decide) (by decide)
      (by decide)⟩

/-- C5: `ParseARN` fails exactly when the input lacks the `arn:` prefix
or has fewer than six colon-delimited segments; the all-empty identifier
`arn:::::` is accepted as the degenerate structure, and `iNv@LiD` is
rejected. -/
theorem parseARN_failure_spec :
    (∀ s : String, ParseARN s = none ↔
      ¬(['a', 'r', 'n', ':'] <+: s.data) ∨ s.data.count ':' + 1 < 6) ∧
    ParseARN "arn:::::" = some ⟨"", "", "", "", ""⟩ ∧
    ParseARN "iNv@LiD" = none :=
  ⟨ParseARN_none_iff, by decide, by decide⟩

/-- C6: `AddRole` on a registry already containing the alias fails with
`ErrRoleExists` and returns the registry unchanged; on a registry without
the alias it succeeds and the resulting sequence is sorted descending
lexicographically by alias. -/
theorem addRole_spec :
    (∀ c r x, getRoleByAlias c r.Alias = some x →
      addRole c r = (c, some (AwsErr.roleExists r.Alias))) ∧
    (∀ c r, getRoleByAlias c r.Alias = none →
      (addRole c r).2 = none ∧ List.Sorted aliasDesc (addRole c r).1.roles) := by
  constructor
  · intro c r x hg
    simp [addRole, hg]
  · intro c r hg
    constructor
    · simp [addRole, hg]
    · simp only [addRole, hg]
      exact @List.sorted_insertionSort Role aliasDesc _
        ⟨fun a b => charListLe_total b.Alias.data a.Alias.data⟩
        ⟨fun _ y _ hxy hyz => charListLe_trans _ y.Alias.data _ hyz hxy⟩
        (c.roles ++ [r])

/-- Witness for C6: the failing add on a present alias and the sorted
successful add on a fresh alias, on the `[a, b]` registry. -/
theorem addRole_spec_witness :
    addRole cexCfg roleB2 = (cexCfg, some (AwsErr.roleExists "b")) ∧
    ((addRole cexCfg roleC).2 = none ∧
      List.Sorted aliasDesc (addRole cexCfg roleC).1.roles) :=
  ⟨addRole_spec.1 cexCfg roleB2 roleB (by decide),
   addRole_spec.2 cexCfg roleC (by decide)⟩

/-- C7: `UpdateRoleByAlias` is remove-then-append with no re-sort: on a
missing alias it fails with `ErrRoleNotFound` leaving the registry
unchanged, and on a present alias it returns exactly the removal result
with the new role appended at the end. -/
theorem updateRoleByAlias_spec :
    (∀ c a r, getRoleByAlias c a = none →
      updateRoleByAlias c a r = (c, some (AwsErr.roleNotFound a))) ∧
    (∀ c a r, (getRoleByAlias c a).isSome →
      updateRoleByAlias c a r =
        (Config.mk c.path c.format ((removeRoleByAlias c a).1.roles ++ [r]), none)) := by
  constructor
  · intro c a r hg
    have hf : ¬(c.roles.find? (fun x => x.Alias == a)).isSome := by
      rw [show c.roles.find? (fun x => x.Alias == a) = getRoleByAlias c a from rfl, hg]
      simp
    simp [updateRoleByAlias, removeRoleByAlias, hf]
  · intro c a r hg
    have hf : (c.roles.find? (fun x => x.Alias == a)).isSome := hg
    simp [updateRoleByAlias, removeRoleByAlias, hf]

/-- Witness for C7: the failing update on a missing alias and the
remove-then-append shape of a successful update, on the `[a, b]`
registry. -/
theorem updateRoleByAlias_spec_witness :
    updateRoleByAlias cexCfg "zz" roleC = (cexCfg, some (AwsErr.roleNotFound "zz")) ∧
    updateRoleByAlias cexCfg "a" roleC =
      (Config.mk cexCfg.path cexCfg.format
        ((removeRoleByAlias cexCfg "a").1.roles ++ [roleC]), none) :=
  ⟨updateRoleByAlias_spec.1 cexCfg "zz" roleC (by decide),
   updateRoleByAlias_spec.2 cexCfg "a" roleC (by decide)⟩

/-- Witness for C8: on a filesystem holding both `cfg.json` and
`cfg.yaml`, loading from option path `cfg.json` fails with
`ErrMultipleConfigs`. -/
theorem newConfig_multipleConfigs_witness :
    newConfigDetectFormat twoCfgFs "cfg.json" = Except.error AwsErr.multipleConfigs :=
  newConfig_multipleConfigs twoCfgFs "cfg.json" (Or.inl ⟨by decide, by decide⟩)

/-- C9: `FromExt` is total: each of the four known extensions, with or
without a leading dot, maps to a format whose `String` is the stable
extension (`yml` normalising to `yaml`); every other input maps to
`Unknown`, whose `String` is the literal `UNKNOWN`. -/
theorem fromExt_toStr_spec :
    (fromExt "json").toStr = "json" ∧ (fromExt ".json").toStr = "json" ∧
    (fromExt "toml").toStr = "toml" ∧ (fromExt ".toml").toStr = "toml" ∧
    (fromExt "yaml").toStr = "yaml" ∧ (fromExt ".yaml").toStr = "yaml" ∧
    (fromExt "yml").toStr = "yaml" ∧ (fromExt ".yml").toStr = "yaml" ∧
    ConfigFormat.unknown.toStr = "UNKNOWN" ∧
    (∀ s : String,
      s ∉ (["json", ".json", "toml", ".toml", "yaml", ".yaml", "yml", ".yml"] :
        List String) →
      fromExt s = ConfigFormat.unknown) :=
  ⟨by decide, by decide, by decide, by decide, by decide, by decide, by decide,
   by decide, by decide, fromExt_unknown_of_not_mem⟩

/-- Witness for C9: the unrecognised extension `exe` maps to `Unknown`. -/
theorem fromExt_toStr_spec_witness : fromExt "exe" = ConfigFormat.unknown :=
  fromExt_toStr_spec.2.2.2.2.2.2.2.2.2 "exe" (by decide)

/-- C10: saving a config whose format is `Unknown` does not fail: the
default marshal function returns nil bytes, so `Save` writes a zero-byte
file at `<path>.UNKNOWN`; consequently the convert flow under an
unrecognised extension replaces the existing config file with an empty
`UNKNOWN`-extension file. -/
theorem save_unknown_format_spec :
    (∀ c fs, c.format = ConfigFormat.unknown →
      save c fs = Except.ok (fsWrite fs (dotJoin c.path "UNKNOWN") [])) ∧
    (∀ fs cfg e, cfg.format ≠ ConfigFormat.unknown →
      fromExt e = ConfigFormat.unknown →
      ∃ fs', convertCmd fs cfg e = Except.ok fs' ∧
        fs' (dotJoin cfg.path "UNKNOWN") = some [] ∧
        fs' (dotJoin cfg.path cfg.format.toStr) = none) := by
  constructor
  · exact save_unknown
  · intro fs cfg e hfmt hext
    refine ⟨fsRemove (fsWrite fs (dotJoin cfg.path "UNKNOWN") [])
      (dotJoin cfg.path cfg.format.toStr), convert_unknown fs cfg e hext, ?_, ?_⟩
    · have hne := unknown_path_ne cfg hfmt
      simp [fsRemove, fsWrite, hne]
    · simp [fsRemove]

/-- Witness for C10: saving an `Unknown`-format config writes an empty
`cfg.UNKNOWN`, and converting a YAML-backed config with extension `exe`
leaves `cfg.UNKNOWN` empty and removes `cfg.yaml`. -/
theorem save_unknown_format_spec_witness :
    save ⟨"cfg", ConfigFormat.unknown, []⟩ emptyFs =
      Except.ok (fsWrite emptyFs (dotJoin "cfg" "UNKNOWN") []) ∧
    ∃ fs', convertCmd emptyFs ⟨"cfg", ConfigFormat.yaml, []⟩ "exe" = Except.ok fs' ∧
      fs' (dotJoin "cfg" "UNKNOWN") = some [] ∧
      fs' (dotJoin "cfg" ConfigFormat.yaml.toStr) = none :=
  ⟨save_unknown_format_spec.1 ⟨"cfg", ConfigFormat.unknown, []⟩ emptyFs rfl,
   save_unknown_format_spec.2 emptyFs ⟨"cfg", ConfigFormat.yaml, []⟩ "exe"
     (by decide) (by decide)⟩

end Awssume
